import Mathlib

/-!
Verification of `contentcuration/frontend/shared/utils/helpers.js`.

The JavaScript helpers are embedded shallowly:

* JS arrays become `List α`; the `JSON.parse(JSON.stringify(arr))` deep copy
  becomes an element-wise `clone : α → α` mapped over the list (on
  JSON-representable elements the round trip is the structural identity);
* `Array.prototype.splice` insertion start-index normalisation is modelled by
  `spliceIndex` (negative starts count from the end, clamped to `0`; large
  starts clamp to the length);
* out-of-range JS element reads yield `undefined`, modelled by a designated
  value `u`; out-of-range element writes extend the array with `undefined`
  holes, modelled by `jsSetElem`;
* promises are embedded synchronously: a promise-returning callback becomes an
  `Except`-valued function, and `promiseChunkRun` additionally records the
  ordered trace of callback invocations and settlements, so sequencing claims
  are statements about the trace;
* `requestAnimationFrame` becomes an explicit scheduler state (`RafSys`)
  holding the registered-but-not-yet-fired frame callbacks; a registered
  callback is the closure value passed at registration time, so it carries the
  arguments captured when it was created;
* pixel/point arithmetic is embedded over `ℚ`.
-/

namespace Helpers

/-- `JSON.parse(JSON.stringify(arr))` deep-copies an array: structurally the
same list, each element replaced by its JSON serialize/deserialize round trip,
abstracted as the element-level function `clone`. On JSON-representable
elements the round trip is the structural identity (`clone = id`). -/
def jsonDeepCopy (clone : α → α) (arr : List α) : List α :=
  arr.map clone

/-- Actual insertion position used by `arr.splice(start, 0, item)`: a negative
`start` counts back from the end (clamped to `0`), a non-negative `start` is
clamped to the array length. -/
def spliceIndex (len : ℕ) (start : ℤ) : ℕ :=
  if start < 0 then ((len : ℤ) + start).toNat else min start.toNat len

/-- `arr.splice(start, 0, item)` as a pure insertion. -/
def spliceInsert (l : List α) (start : ℤ) (x : α) : List α :=
  l.insertIdx (spliceIndex l.length start) x

/-- `insertBefore(arr, idx, item)` from helpers.js: deep-copy `arr`, then
`newArr.splice(Math.max(0, idx), 0, item)`. -/
def insertBefore (clone : α → α) (arr : List α) (idx : ℤ) (item : α) : List α :=
  let newArr := jsonDeepCopy clone arr
  spliceInsert newArr (max 0 idx) item

/-- `insertAfter(arr, idx, item)` from helpers.js: deep-copy `arr`, then
`newArr.splice(Math.min(arr.length, idx + 1), 0, item)`. -/
def insertAfter (clone : α → α) (arr : List α) (idx : ℤ) (item : α) : List α :=
  let newArr := jsonDeepCopy clone arr
  spliceInsert newArr (min (arr.length : ℤ) (idx + 1)) item

/-- JS element read `l[i]`: `undefined` (the designated value `u`) when `i` is
out of range. -/
def jsGetElem (u : α) (l : List α) (i : ℕ) : α :=
  l.getD i u

/-- JS element write `l[i] = v`: in range it updates in place; past the end it
extends the array to length `i + 1`, the gap filled with `undefined` holes. -/
def jsSetElem (u : α) (l : List α) (i : ℕ) (v : α) : List α :=
  if i < l.length then l.set i v
  else l ++ List.replicate (i - l.length) u ++ [v]

/-- `swapElements(arr, idx1, idx2)` from helpers.js: deep-copy `arr`, then
`[newArr[idx1], newArr[idx2]] = [newArr[idx2], newArr[idx1]]` — both reads
happen before either write, then `newArr[idx1]` and `newArr[idx2]` are
assigned in that order. -/
def swapElements (clone : α → α) (u : α) (arr : List α) (idx1 idx2 : ℕ) : List α :=
  let newArr := jsonDeepCopy clone arr
  let v1 := jsGetElem u newArr idx2
  let v2 := jsGetElem u newArr idx1
  jsSetElem u (jsSetElem u newArr idx1 v1) idx2 v2

/-- Positive-size core of lodash `chunk`: consecutive slices of `n` elements,
the last possibly shorter. Callers guard `1 ≤ n`; the `n = 0` branch is
unreachable and only makes the recursion total. -/
def chunkPos (n : ℕ) (l : List α) : List (List α) :=
  if l.isEmpty then []
  else if n = 0 then []
  else l.take n :: chunkPos n (l.drop n)
termination_by l.length
decreasing_by
  rename_i hl hn
  simp only [List.length_drop]
  exact Nat.sub_lt (List.length_pos_of_ne_nil (by simpa [List.isEmpty_iff] using hl))
    (Nat.pos_of_ne_zero hn)

/-- lodash `chunk(array, size)` (for an integer `size`): returns `[]` when the
array is empty or `size < 1`, otherwise consecutive groups of `size`. -/
def lodashChunk (size : ℤ) (l : List α) : List (List α) :=
  if size < 1 ∨ l.isEmpty then [] else chunkPos size.toNat l

/-- Observable events of one `promiseChunk` run: a callback invocation on a
group, and the settlement (fulfilment or rejection) of the promise that
invocation returned. -/
inductive Ev (α β ε : Type) where
  | invoke (g : List α)
  | settleOk (g : List α) (rs : List β)
  | settleErr (g : List α) (e : ε)
deriving DecidableEq, Repr

/-- Sequential processing of the chunk list, embedding the nested
`promise.then(results => callback(chunk).then(rs => results.concat(rs)))`
chain built by `reduce`: each group's callback runs only after the previous
group's promise fulfilled, a rejection propagates and no later callback runs.
Returns the final settlement together with the ordered event trace. -/
def runGroups (cb : List α → Except ε (List β)) (acc : List β) :
    List (List α) → Except ε (List β) × List (Ev α β ε)
  | [] => (Except.ok acc, [])
  | g :: gs =>
    match cb g with
    | Except.ok rs =>
      let rest := runGroups cb (acc ++ rs) gs
      (rest.1, Ev.invoke g :: Ev.settleOk g rs :: rest.2)
    | Except.error e => (Except.error e, [Ev.invoke g, Ev.settleErr g e])

/-- `promiseChunk(things, chunkSize, callback)` from helpers.js: resolves `[]`
immediately when `things` is empty, otherwise reduces over
`chunk(things, chunkSize)` starting from `Promise.resolve([])`. The second
component is the event trace of the run. -/
def promiseChunkRun (things : List α) (chunkSize : ℤ)
    (callback : List α → Except ε (List β)) :
    Except ε (List β) × List (Ev α β ε) :=
  if things.length = 0 then (Except.ok [], [])
  else runGroups callback [] (lodashChunk chunkSize things)

/-- Groups on which the callback was invoked, in invocation order, read off a
trace. -/
def invokedGroups : List (Ev α β ε) → List (List α) :=
  List.filterMap fun ev =>
    match ev with
    | Ev.invoke g => some g
    | _ => none

/-- Bounding rectangle of the captured root element, in pixels. -/
structure BoundingRect where
  width : ℚ
  height : ℚ
deriving DecidableEq, Repr

/-- `fitToScale(boundingRect, scale = 1)` from helpers.js: shrink `scale` so
the rectangle fits on a 612×792-point page; the two conditional updates run in
sequence, height first. -/
def fitToScale (boundingRect : BoundingRect) (scale : ℚ := 1) : ℚ :=
  let pageWidth : ℚ := 612
  let pageHeight : ℚ := 792
  let scale1 := if pageHeight / scale < boundingRect.height
    then pageHeight / boundingRect.height else scale
  let scale2 := if pageWidth / scale1 < boundingRect.width
    then pageWidth / boundingRect.width else scale1
  scale2

/-- Alignment computed by `insertText` (helpers.js lines 110–114) from the
node's computed `text-align` and the `isRtl` parameter: `start` and `end` are
resolved against `isRtl`, every other value passes through. -/
def insertTextAlign (align : String) (isRtl : Bool) : String :=
  if align = "start" then (if isRtl then "right" else "left")
  else if align = "end" then (if isRtl then "left" else "right")
  else align

/-- The style facts of a leaf text node that matter for alignment: its
computed `text-align`, and whether the node's rendering context (its computed
direction) is right-to-left. -/
structure TextNodeStyle where
  textAlign : String
  dirRtl : Bool
deriving DecidableEq, Repr

/-- Alignment `generatePdf` passes to `doc.text` for a leaf text node:
`recurseNodes` (helpers.js line 224) calls
`insertText(doc, fontList, node, x, y, width, scale)` with no `isRtl`
argument, so `insertText` runs with its default `isRtl = false`, whatever the
node's rendering direction is. -/
def generatePdfTextAlign (node : TextNodeStyle) : String :=
  insertTextAlign node.textAlign false

/-- State of one `animationThrottle(callback)` wrapper together with the
frame scheduler: `frameId` is the wrapper's `animationFrameId` variable,
`lastArgs` the arguments captured by the current `lastCallback` closure
(`none` for the initial no-op closure), `registered` the
requested-but-not-yet-fired frame callbacks, each carrying the arguments its
closure captured at registration time, `nextId` the next (non-zero) frame
request id, and `fired` the invocations of the underlying `callback` so far,
in order, each with its arguments. -/
structure RafSys (A : Type) where
  frameId : Option ℕ
  lastArgs : Option A
  registered : List (ℕ × A)
  nextId : ℕ
  fired : List A
deriving DecidableEq, Repr

/-- Fresh wrapper state: no pending frame, initial `lastCallback` a no-op. -/
def rafInit : RafSys A :=
  ⟨none, none, [], 1, []⟩

/-- One call of the throttled wrapper with arguments `args`: reassign
`lastCallback` to a closure capturing `args`; if a frame request is pending,
return; otherwise pass the just-created closure to `requestAnimationFrame`,
which registers that closure value (later reassignments of the
`lastCallback` variable do not change what was registered). -/
def throttledCall (s : RafSys A) (args : A) : RafSys A :=
  let s1 := { s with lastArgs := some args }
  match s1.frameId with
  | some _ => s1
  | none =>
    { s1 with
      frameId := some s1.nextId
      registered := s1.registered ++ [(s1.nextId, args)]
      nextId := s1.nextId + 1 }

/-- Run a `lastCallback` closure value: the initial closure does nothing;
a closure created by a wrapper call invokes `callback` with its captured
arguments and clears `animationFrameId`. -/
def runClosure (s : RafSys A) (cargs : Option A) : RafSys A :=
  match cargs with
  | none => s
  | some a => { s with fired := s.fired ++ [a], frameId := none }

/-- The display-refresh tick fires the oldest registered frame callback,
running the closure that was registered. -/
def fireNext (s : RafSys A) : RafSys A :=
  match s.registered with
  | [] => s
  | (_, cargs) :: rest => runClosure { s with registered := rest } (some cargs)

/-- `throttled.cancel()`: if a frame request is pending, cancel the
registration and clear `animationFrameId`. -/
def throttleCancel (s : RafSys A) : RafSys A :=
  match s.frameId with
  | none => s
  | some id => { s with registered := s.registered.filter (fun p => p.1 ≠ id), frameId := none }

/-- `throttled.flush()`: cancel any pending frame request, then run the
current `lastCallback` closure synchronously. -/
def throttleFlush (s : RafSys A) : RafSys A :=
  let s1 := throttleCancel s
  runClosure s1 s1.lastArgs

end Helpers

namespace Helpers

/-! ### Helper lemmas -/

theorem jsonDeepCopy_id {α : Type} (clone : α → α) (hclone : ∀ a, clone a = a)
    (l : List α) : jsonDeepCopy clone l = l := by
  simp [jsonDeepCopy, show clone = id from funext hclone]

theorem jsSetElem_in_range {α : Type} (u : α) (l : List α) (i : ℕ) (v : α)
    (h : i < l.length) : jsSetElem u l i v = l.set i v := by
  simp [jsSetElem, h]

theorem list_set_self {α : Type} (l : List α) (i : ℕ) (h : i < l.length) :
    l.set i l[i] = l := by
  apply List.ext_getElem (by simp)
  intro n h1 h2
  rw [List.getElem_set]
  split
  · rename_i hin; subst hin; rfl
  · rfl

theorem chunkPos_flatten {α : Type} (n : ℕ) (hn : n ≠ 0) (l : List α) :
    (chunkPos n l).flatten = l := by
  induction l using chunkPos.induct n with
  | case1 l hl => rw [chunkPos]; simp_all [List.isEmpty_iff]
  | case2 l hl h0 => exact absurd h0 hn
  | case3 l hl h0 ih =>
    rw [chunkPos, if_neg hl, if_neg h0]
    simp [ih, List.take_append_drop]

theorem chunkPos_groups {α : Type} (n : ℕ) (hn : n ≠ 0) (l : List α) :
    ∀ g ∈ chunkPos n l, g ≠ [] ∧ g.length ≤ n := by
  induction l using chunkPos.induct n with
  | case1 l hl => rw [chunkPos]; simp_all
  | case2 l hl h0 => exact absurd h0 hn
  | case3 l hl h0 ih =>
    rw [chunkPos, if_neg hl, if_neg h0]
    intro g hg
    rcases List.mem_cons.mp hg with hg | hg
    · subst hg
      refine ⟨?_, List.length_take_le n l⟩
      have hl' : l ≠ [] := by simpa [List.isEmpty_iff] using hl
      simp [List.take_eq_nil_iff, hl', h0]
    · exact ih g hg

theorem runGroups_allOk {α β ε : Type} (f : List α → List β) (gs : List (List α))
    (acc : List β) :
    runGroups (ε := ε) (fun g => Except.ok (f g)) acc gs =
      (Except.ok (acc ++ (gs.map f).flatten),
       gs.flatMap fun g => [Ev.invoke g, Ev.settleOk g (f g)]) := by
  induction gs generalizing acc with
  | nil => simp [runGroups]
  | cons g gs ih => simp [runGroups, ih]

theorem runGroups_firstErr {α β ε : Type} (cb : List α → Except ε (List β)) (e : ε)
    (gs1 gs2 : List (List α)) (gf : List α) (acc : List β)
    (hok : ∀ g ∈ gs1, ∃ rs, cb g = Except.ok rs) (hf : cb gf = Except.error e) :
    (runGroups cb acc (gs1 ++ gf :: gs2)).1 = Except.error e ∧
    invokedGroups (runGroups cb acc (gs1 ++ gf :: gs2)).2 = gs1 ++ [gf] := by
  induction gs1 generalizing acc with
  | nil => simp [runGroups, hf, invokedGroups]
  | cons g gs1 ih =>
    obtain ⟨rs, hrs⟩ := hok g (List.mem_cons_self g gs1)
    have ih' := ih (acc ++ rs) (fun g' hg' => hok g' (List.mem_cons_of_mem g hg'))
    simp only [List.cons_append, runGroups, hrs]
    refine ⟨ih'.1, ?_⟩
    simp [invokedGroups] at ih' ⊢
    exact ih'.2

end Helpers

namespace Helpers

/-- C1 counterexample: with the non-empty list `[1]` and chunk size `0`, the
run resolves to `[]` without any callback invocation, so the resolved value is
not a concatenation of per-group results whose flattening is the input. -/
theorem promiseChunk_partition_cex :
    (promiseChunkRun ([1] : List ℤ) 0
        (fun g => (Except.ok g : Except String (List ℤ)))).1 ≠ Except.ok [1] ∧
    invokedGroups (promiseChunkRun ([1] : List ℤ) 0
        (fun g => (Except.ok g : Except String (List ℤ)))).2 = [] := by
  refine ⟨fun hcontra => ?_, rfl⟩
  have : (Except.ok ([] : List ℤ) : Except String (List ℤ)) = Except.ok [1] := hcontra
  simp at this

/-- C1 (amended to chunk sizes ≥ 1): `promiseChunk` with an empty list
resolves to `[]` without invoking the callback; otherwise it partitions the
items into consecutive non-empty groups of at most `chunkSize` elements whose
concatenation is the input, invokes the callback once per group in partition
order — each group's settlement event preceding the next group's invocation
in the trace — and resolves to the concatenation of the per-group results in
group order, so the flattened result preserves input order. -/
theorem promiseChunk_ok_spec {α β ε : Type} (things : List α) (chunkSize : ℤ)
    (f : List α → List β) (hsz : 1 ≤ chunkSize) :
    promiseChunkRun ([] : List α) chunkSize
        (fun g => (Except.ok (f g) : Except ε (List β))) = (Except.ok [], []) ∧
    (lodashChunk chunkSize things).flatten = things ∧
    (∀ g ∈ lodashChunk chunkSize things, g ≠ [] ∧ (g.length : ℤ) ≤ chunkSize) ∧
    promiseChunkRun things chunkSize
        (fun g => (Except.ok (f g) : Except ε (List β))) =
      (Except.ok ((lodashChunk chunkSize things).map f).flatten,
       (lodashChunk chunkSize things).flatMap fun g =>
         [Ev.invoke g, Ev.settleOk g (f g)]) := by
  have hn0 : chunkSize.toNat ≠ 0 := by omega
  refine ⟨by simp [promiseChunkRun], ?_, ?_, ?_⟩
  · by_cases hne : things = []
    · subst hne; simp [lodashChunk]
    · rw [lodashChunk, if_neg (by simp [hne]; omega)]
      exact chunkPos_flatten _ hn0 things
  · by_cases hne : things = []
    · subst hne; simp [lodashChunk]
    · rw [lodashChunk, if_neg (by simp [hne]; omega)]
      intro g hg
      obtain ⟨h1, h2⟩ := chunkPos_groups _ hn0 things g hg
      exact ⟨h1, by omega⟩
  · by_cases hne : things = []
    · subst hne; simp [promiseChunkRun, lodashChunk]
    · rw [promiseChunkRun, if_neg (by simp [hne])]
      rw [runGroups_allOk]
      simp

theorem promiseChunk_ok_spec_witness :
    promiseChunkRun ([] : List ℤ) 2
        (fun g => (Except.ok ((fun g => g) g) : Except String (List ℤ))) =
      (Except.ok [], []) ∧
    (lodashChunk 2 ([1, 2, 3, 4, 5] : List ℤ)).flatten = [1, 2, 3, 4, 5] ∧
    (∀ g ∈ lodashChunk 2 ([1, 2, 3, 4, 5] : List ℤ),
      g ≠ [] ∧ (g.length : ℤ) ≤ 2) ∧
    promiseChunkRun ([1, 2, 3, 4, 5] : List ℤ) 2
        (fun g => (Except.ok ((fun g => g) g) : Except String (List ℤ))) =
      (Except.ok ((lodashChunk 2 ([1, 2, 3, 4, 5] : List ℤ)).map (fun g => g)).flatten,
       (lodashChunk 2 ([1, 2, 3, 4, 5] : List ℤ)).flatMap fun g =>
         [Ev.invoke g, Ev.settleOk g ((fun g => g) g)]) :=
  promiseChunk_ok_spec [1, 2, 3, 4, 5] 2 (fun g => g) (by norm_num)

/-- C2: when the callback fulfils on every group before the `k`-th and rejects
on the `k`-th group, the whole run rejects with that same failure — no partial
result is delivered — and the callback is invoked on exactly the first `k + 1`
groups, never on a group after the failing one. -/
theorem promiseChunk_error_spec {α β ε : Type} (things : List α) (chunkSize : ℤ)
    (cb : List α → Except ε (List β)) (e : ε) (k : ℕ) (gf : List α)
    (hne : things ≠ [])
    (hgf : (lodashChunk chunkSize things)[k]? = some gf)
    (hok : ∀ g ∈ (lodashChunk chunkSize things).take k, ∃ rs, cb g = Except.ok rs)
    (hfail : cb gf = Except.error e) :
    (promiseChunkRun things chunkSize cb).1 = Except.error e ∧
    invokedGroups (promiseChunkRun things chunkSize cb).2 =
      (lodashChunk chunkSize things).take (k + 1) := by
  obtain ⟨hk, hgfeq⟩ := List.getElem?_eq_some.mp hgf
  set gs := lodashChunk chunkSize things with hgs
  have hsplit : gs = gs.take k ++ gf :: gs.drop (k + 1) := by
    conv_lhs => rw [← List.take_append_drop k gs]
    rw [List.drop_eq_getElem_cons hk, hgfeq]
  have main := runGroups_firstErr cb e (gs.take k) (gs.drop (k + 1)) gf [] hok hfail
  rw [← hsplit] at main
  have hrun : promiseChunkRun things chunkSize cb = runGroups cb [] gs := by
    rw [promiseChunkRun, if_neg (by simp [hne])]
  rw [hrun]
  refine ⟨main.1, ?_⟩
  rw [main.2, ← List.take_concat_get gs k hk, hgfeq, List.concat_eq_append]

theorem promiseChunk_error_spec_witness :
    (promiseChunkRun ([1, 2, 3] : List ℤ) 1
        (fun g => if g = [2] then (Except.error "boom" : Except String (List ℤ))
          else Except.ok g)).1 = Except.error "boom" ∧
    invokedGroups (promiseChunkRun ([1, 2, 3] : List ℤ) 1
        (fun g => if g = [2] then (Except.error "boom" : Except String (List ℤ))
          else Except.ok g)).2 =
      (lodashChunk 1 ([1, 2, 3] : List ℤ)).take 2 :=
  promiseChunk_error_spec [1, 2, 3] 1
    (fun g => if g = [2] then (Except.error "boom" : Except String (List ℤ))
      else Except.ok g)
    "boom" 1 [2] (by simp)
    (by simp [lodashChunk, chunkPos])
    (by intro g hg; simp [lodashChunk, chunkPos] at hg; subst hg; exact ⟨[1], rfl⟩)
    (by simp)

/-- C10: with a non-empty list and a chunk size below `1`, lodash `chunk`
produces no groups, so `promiseChunk` resolves to `[]` with an empty event
trace — the callback is never invoked. -/
theorem promiseChunk_chunkSize_lt_one {α β ε : Type} (things : List α)
    (chunkSize : ℤ) (cb : List α → Except ε (List β))
    (hne : things ≠ []) (hsz : chunkSize < 1) :
    promiseChunkRun things chunkSize cb = (Except.ok [], []) := by
  rw [promiseChunkRun, if_neg (by simp [hne]), lodashChunk, if_pos (Or.inl hsz)]
  rfl

theorem promiseChunk_chunkSize_lt_one_witness :
    promiseChunkRun ([1] : List ℤ) 0
        (fun g => (Except.ok g : Except String (List ℤ))) = (Except.ok [], []) :=
  promiseChunk_chunkSize_lt_one [1] 0 (fun g => Except.ok g) (by simp) (by norm_num)

end Helpers

namespace Helpers

/-- C9: for a bounding rectangle with positive width and height, `fitToScale`
with the default scale `1` returns `min 1 (min (612 / width) (792 / height))`
— the scale is only ever shrunk, never grown — both scaled dimensions fit
within a 612×792-point page, and at `1224 × 1584` it returns exactly `1/2`. -/
theorem fitToScale_spec (w h : ℚ) (hw : 0 < w) (hh : 0 < h) :
    fitToScale ⟨w, h⟩ 1 = min 1 (min (612 / w) (792 / h)) ∧
    fitToScale ⟨w, h⟩ 1 ≤ 1 ∧
    w * fitToScale ⟨w, h⟩ 1 ≤ 612 ∧
    h * fitToScale ⟨w, h⟩ 1 ≤ 792 ∧
    fitToScale ⟨1224, 1584⟩ 1 = 1 / 2 := by
  have hmain : fitToScale ⟨w, h⟩ 1 = min 1 (min (612 / w) (792 / h)) := by
    show (if (612 : ℚ) / (if (792 : ℚ) / 1 < h then 792 / h else 1) < w
        then (612 : ℚ) / w else if (792 : ℚ) / 1 < h then 792 / h else 1) =
      min 1 (min (612 / w) (792 / h))
    rw [div_one]
    split_ifs with hA hB hB
    · -- 792 < h and 612 / (792 / h) < w
      have h792h : (0 : ℚ) < 792 / h := by positivity
      rw [div_lt_iff₀ h792h] at hB
      have hwh : 612 / w < 792 / h := by
        rw [div_lt_iff₀ hw]
        linarith [mul_comm w (792 / h)]
      have hlt1 : 792 / h < 1 := (div_lt_one hh).mpr hA
      rw [min_eq_left (le_of_lt hwh), min_eq_right (le_of_lt (lt_trans hwh hlt1))]
    · -- 792 < h and ¬(612 / (792 / h) < w)
      have h792h : (0 : ℚ) < 792 / h := by positivity
      push_neg at hB
      rw [le_div_iff₀ h792h] at hB
      have key : w * (792 / h) * h = 792 * w := by
        field_simp
        ring
      have hmul := mul_le_mul_of_nonneg_right hB (le_of_lt hh)
      rw [key] at hmul
      have hhw : 792 / h ≤ 612 / w := by
        rw [div_le_div_iff₀ hh hw]
        linarith
      have hlt1 : 792 / h < 1 := (div_lt_one hh).mpr hA
      rw [min_eq_right hhw, min_eq_right (le_of_lt hlt1)]
    · -- h ≤ 792 and 612 / 1 < w
      rw [div_one] at hB
      push_neg at hA
      have hlt1 : 612 / w < 1 := (div_lt_one hw).mpr hB
      have h1h : 1 ≤ 792 / h := (one_le_div hh).mpr hA
      rw [min_eq_left (le_trans (le_of_lt hlt1) h1h),
        min_eq_right (le_of_lt hlt1)]
    · -- h ≤ 792 and ¬(612 / 1 < w)
      rw [div_one] at hB
      push_neg at hA hB
      have h1w : 1 ≤ 612 / w := (one_le_div hw).mpr hB
      have h1h : 1 ≤ 792 / h := (one_le_div hh).mpr hA
      rw [min_eq_left (le_min h1w h1h)]
  have hfitw : fitToScale ⟨w, h⟩ 1 ≤ 612 / w := by
    rw [hmain]; exact le_trans (min_le_right _ _) (min_le_left _ _)
  have hfith : fitToScale ⟨w, h⟩ 1 ≤ 792 / h := by
    rw [hmain]; exact le_trans (min_le_right _ _) (min_le_right _ _)
  refine ⟨hmain, by rw [hmain]; exact min_le_left _ _, ?_, ?_, by norm_num [fitToScale]⟩
  · have := (le_div_iff₀ hw).mp hfitw
    linarith [mul_comm (fitToScale ⟨w, h⟩ 1) w]
  · have := (le_div_iff₀ hh).mp hfith
    linarith [mul_comm (fitToScale ⟨w, h⟩ 1) h]

theorem fitToScale_spec_witness :
    fitToScale ⟨1224, 1584⟩ 1 = min 1 (min (612 / 1224) (792 / 1584)) ∧
    fitToScale ⟨1224, 1584⟩ 1 ≤ 1 ∧
    (1224 : ℚ) * fitToScale ⟨1224, 1584⟩ 1 ≤ 612 ∧
    (1584 : ℚ) * fitToScale ⟨1224, 1584⟩ 1 ≤ 792 ∧
    fitToScale ⟨1224, 1584⟩ 1 = 1 / 2 :=
  fitToScale_spec 1224 1584 (by norm_num) (by norm_num)

end Helpers

namespace Helpers

/-- C4 counterexample: a leaf text node whose rendering context is
right-to-left and whose computed `text-align` is `start` is rendered by
`generatePdf` with alignment `left`, not `right` — `recurseNodes` calls
`insertText` without the `isRtl` argument, so the right-to-left mapping never
applies. -/
theorem generatePdfTextAlign_rtl_cex :
    generatePdfTextAlign ⟨"start", true⟩ ≠ "right" := by
  decide

/-- C4 (amended): `insertText` maps `start`/`end` according to its `isRtl`
parameter (`start` to `right` and `end` to `left` when `isRtl` is true,
`start` to `left` and `end` to `right` otherwise), but `generatePdf` always
invokes `insertText` with `isRtl` defaulted to `false`, so every text node it
renders gets the left-to-right mapping regardless of the node's rendering
direction. -/
theorem insertTextAlign_mapping :
    insertTextAlign "start" true = "right" ∧
    insertTextAlign "end" true = "left" ∧
    insertTextAlign "start" false = "left" ∧
    insertTextAlign "end" false = "right" ∧
    ∀ node : TextNodeStyle, generatePdfTextAlign node =
      insertTextAlign node.textAlign false := by
  exact ⟨by decide, by decide, by decide, by decide, fun node => rfl⟩

/-- C3: the code at the failing input — the wrapper produced by
`animationThrottle` is called twice synchronously, with argument `1` and then
argument `2`, before the next display-refresh tick; exactly one frame callback
is registered, and when the tick fires the underlying callback runs exactly
once but with the first call's argument `1`, not the latest argument `2`:
`requestAnimationFrame` was handed the first call's closure, and later
reassignments of the `lastCallback` variable do not change that
registration. -/
theorem animationThrottle_tick_uses_first_args :
    (throttledCall (throttledCall (rafInit : RafSys ℤ) 1) 2).registered.length = 1 ∧
    (fireNext (throttledCall (throttledCall (rafInit : RafSys ℤ) 1) 2)).fired = [1] ∧
    (fireNext (throttledCall (throttledCall (rafInit : RafSys ℤ) 1) 2)).fired ≠ [2] := by
  refine ⟨rfl, rfl, ?_⟩
  decide

end Helpers

namespace Helpers

/-- C7: `insertBefore` returns a new sequence of length `len(s) + 1` with the
item inserted at position `max 0 i` clamped to at most `len(s)`; for a valid
index `0 ≤ i ≤ len(s)` the result carries the item at position `i`, a negative
index inserts at the front, and an index beyond the length appends at the end.
Elements are assumed JSON-representable, so the per-element round-trip clone
is the identity. -/
theorem insertBefore_spec {α : Type} (clone : α → α) (hclone : ∀ a, clone a = a)
    (s : List α) (i : ℤ) (x : α) :
    insertBefore clone s i x = s.insertIdx (min (max 0 i).toNat s.length) x ∧
    (insertBefore clone s i x).length = s.length + 1 ∧
    (0 ≤ i → i ≤ (s.length : ℤ) → (insertBefore clone s i x)[i.toNat]? = some x) ∧
    (i < 0 → insertBefore clone s i x = x :: s) ∧
    ((s.length : ℤ) ≤ i → insertBefore clone s i x = s ++ [x]) := by
  have hmap := jsonDeepCopy_id clone hclone s
  have hmain : insertBefore clone s i x =
      s.insertIdx (min (max 0 i).toNat s.length) x := by
    simp only [insertBefore, hmap, spliceInsert, spliceIndex]
    rw [if_neg (by omega)]
  refine ⟨hmain, ?_, ?_, ?_, ?_⟩
  · rw [hmain]
    exact List.length_insertIdx _ _ (min_le_right _ _)
  · intro h0 hlen
    have hle : i.toNat ≤ s.length := by omega
    have hpos : min (max 0 i).toNat s.length = i.toNat := by omega
    rw [hmain, hpos]
    have hlt : i.toNat < (s.insertIdx i.toNat x).length := by
      rw [List.length_insertIdx _ _ hle]
      omega
    rw [List.getElem?_eq_getElem hlt, List.getElem_insertIdx_self s x i.toNat hle]
  · intro hneg
    have hpos : min (max 0 i).toNat s.length = 0 := by omega
    rw [hmain, hpos, List.insertIdx_zero]
  · intro hge
    have hpos : min (max 0 i).toNat s.length = s.length := by omega
    rw [hmain, hpos, List.insertIdx_length_self]

theorem insertBefore_spec_witness :
    insertBefore (id : ℤ → ℤ) [10, 20, 30] 1 99 =
      List.insertIdx (min (max 0 (1 : ℤ)).toNat 3) 99 [10, 20, 30] ∧
    (insertBefore (id : ℤ → ℤ) [10, 20, 30] 1 99).length = 3 + 1 ∧
    (0 ≤ (1 : ℤ) → (1 : ℤ) ≤ 3 →
      (insertBefore (id : ℤ → ℤ) [10, 20, 30] 1 99)[(1 : ℤ).toNat]? = some 99) ∧
    ((1 : ℤ) < 0 → insertBefore (id : ℤ → ℤ) [10, 20, 30] 1 99 = 99 :: [10, 20, 30]) ∧
    ((3 : ℤ) ≤ 1 → insertBefore (id : ℤ → ℤ) [10, 20, 30] 1 99 = [10, 20, 30] ++ [99]) :=
  insertBefore_spec id (fun _ => rfl) [10, 20, 30] 1 99

/-- C5 counterexample: `insertAfter([1,2,3], -2, 99)` yields `[1,2,99,3]` —
the negative splice start `min(3, -1) = -1` counts back from the end, putting
the item at position `2`, not at the claimed position `min(len, i+1)` (which,
read as a list position, is `0`). -/
theorem insertAfter_claimed_position_cex :
    insertAfter (id : ℤ → ℤ) [1, 2, 3] (-2) 99 ≠
      List.insertIdx (min (3 : ℤ) ((-2) + 1)).toNat 99 [1, 2, 3] := by
  decide

/-- C5 (amended to `i ≥ -1`): `insertAfter` returns a new sequence equal to
`s` with the item inserted at position `min(len(s), i+1)`; with `i = len(s)-1`
the item is appended at the end. Elements are assumed JSON-representable, so
the per-element round-trip clone is the identity. -/
theorem insertAfter_spec {α : Type} (clone : α → α) (hclone : ∀ a, clone a = a)
    (s : List α) (i : ℤ) (x : α) (hi : -1 ≤ i) :
    insertAfter clone s i x = s.insertIdx (min (i + 1).toNat s.length) x ∧
    (insertAfter clone s i x).length = s.length + 1 ∧
    (i = (s.length : ℤ) - 1 → insertAfter clone s i x = s ++ [x]) := by
  have hmap := jsonDeepCopy_id clone hclone s
  have hmain : insertAfter clone s i x =
      s.insertIdx (min (i + 1).toNat s.length) x := by
    simp only [insertAfter, hmap, spliceInsert, spliceIndex]
    rw [if_neg (by omega)]
    congr 1
    omega
  refine ⟨hmain, ?_, ?_⟩
  · rw [hmain]
    exact List.length_insertIdx _ _ (min_le_right _ _)
  · intro hlast
    have hpos : min (i + 1).toNat s.length = s.length := by omega
    rw [hmain, hpos, List.insertIdx_length_self]

theorem insertAfter_spec_witness :
    insertAfter (id : ℤ → ℤ) [1, 2, 3] 2 99 =
      List.insertIdx (min ((2 : ℤ) + 1).toNat 3) 99 [1, 2, 3] ∧
    (insertAfter (id : ℤ → ℤ) [1, 2, 3] 2 99).length = 3 + 1 ∧
    ((2 : ℤ) = 3 - 1 → insertAfter (id : ℤ → ℤ) [1, 2, 3] 2 99 = [1, 2, 3] ++ [99]) :=
  insertAfter_spec id (fun _ => rfl) [1, 2, 3] 2 99 (by norm_num)

end Helpers

namespace Helpers

theorem swapElements_in_range {α : Type} (clone : α → α) (hclone : ∀ a, clone a = a)
    (u : α) (s : List α) (i j : ℕ) (hi : i < s.length) (hj : j < s.length) :
    swapElements clone u s i j = (s.set i s[j]).set j s[i] := by
  have hmap := jsonDeepCopy_id clone hclone s
  simp only [swapElements, hmap, jsGetElem]
  rw [List.getD_eq_getElem s u hj, List.getD_eq_getElem s u hi]
  rw [jsSetElem_in_range u s i _ hi, jsSetElem_in_range u _ j _ (by simpa using hj)]

/-- C6 counterexample: with the out-of-range index `5` on the one-element
sequence `[some 1]`, applying `swapElements` twice yields a six-element
sequence (`undefined` holes were materialised), not the original sequence. -/
theorem swapElements_involution_cex :
    swapElements (id : Option ℤ → Option ℤ) none
        (swapElements id none [some 1] 0 5) 0 5 ≠ [some 1] := by
  decide

/-- C6 (amended to in-range indices): for `i, j < len(s)`, applying
`swapElements` twice with the same indices returns the original sequence.
Elements are assumed JSON-representable, so the per-element round-trip clone
is the identity. -/
theorem swapElements_involution {α : Type} (clone : α → α) (hclone : ∀ a, clone a = a)
    (u : α) (s : List α) (i j : ℕ) (hi : i < s.length) (hj : j < s.length) :
    swapElements clone u (swapElements clone u s i j) i j = s := by
  by_cases hij : i = j
  · subst hij
    have h1 : swapElements clone u s i i = s := by
      rw [swapElements_in_range clone hclone u s i i hi hi, List.set_set,
        list_set_self _ _ hi]
    rw [h1, h1]
  · have hji : j ≠ i := fun hcontra => hij hcontra.symm
    have hti : i < ((s.set i s[j]).set j s[i]).length := by simpa using hi
    have htj : j < ((s.set i s[j]).set j s[i]).length := by simpa using hj
    rw [swapElements_in_range clone hclone u s i j hi hj,
      swapElements_in_range clone hclone u _ i j hti htj]
    have e1 : ((s.set i s[j]).set j s[i])[j] = s[i] := by
      simp [List.getElem_set]
    have e2 : ((s.set i s[j]).set j s[i])[i] = s[j] := by
      simp [List.getElem_set, hji, hij]
    rw [e1, e2]
    have step1 : ((s.set i s[j]).set j s[i]).set i s[i] = s.set j s[i] := by
      rw [List.set_comm _ _ _ hji, List.set_set, list_set_self _ _ hi]
    rw [step1, List.set_set, list_set_self _ _ hj]

theorem swapElements_involution_witness :
    swapElements (id : ℤ → ℤ) 0 (swapElements id 0 [1, 2, 3] 0 2) 0 2 = [1, 2, 3] :=
  swapElements_involution id (fun _ => rfl) 0 [1, 2, 3] 0 2 (by decide) (by decide)

end Helpers
